import Mathlib

/-!
Verification of the DFA notebook (`projects/2-state-machines/Hess.ipynb`).

The notebook defines a Python class `StateMachine` (constructor, `out_edges`,
`is_terminal`, `is_stuck`, `advance`), an acceptance checker `check`, and an
exhaustive path enumerator `sample`/`sample2`.  We embed those functions
shallowly in Lean:

* A Python `dict` is modelled as an insertion-ordered association list
  (`List (key × value)`); `d[k] = v` appends a fresh key at the end or updates
  the first occurrence in place, `d[k]` is a first-match lookup that raises
  `KeyError` when absent (modelled as `Option`), and iteration over a dict
  enumerates its entries in insertion order.
* A raised exception is modelled as `none` / a `false` success flag; a method
  that mutates the object returns the object state after the call, so the
  "object unchanged on failure" behaviour of the Python code is visible in the
  result.
-/

namespace StateMachines

/-- First-match lookup in an association list: the model of Python's `k in d`
and `d[k]` (with `none` playing the role of `KeyError`). -/
def dictLookup {α β : Type} [DecidableEq α] : List (α × β) → α → Option β
  | [], _ => none
  | (k, v) :: rest, key => if k = key then some v else dictLookup rest key

/-- Model of Python's `key in d`. -/
def containsKey {α β : Type} [DecidableEq α] (m : List (α × β)) (k : α) : Bool :=
  (dictLookup m k).isSome

/-- Lookup with a default value, used where the Python code reads `d[k]` at a
key it has just ensured is present. -/
def dictGetD {α β : Type} [DecidableEq α] (m : List (α × β)) (k : α) (dflt : β) : β :=
  (dictLookup m k).getD dflt

/-- Model of Python's `d[k] = v`: update the first occurrence of `k` in place,
or append `(k, v)` at the end when `k` is fresh (insertion order). -/
def dictSet {α β : Type} [DecidableEq α] : List (α × β) → α → β → List (α × β)
  | [], k, v => [(k, v)]
  | (k2, v2) :: rest, k, v =>
    if k2 = k then (k, v) :: rest else (k2, v2) :: dictSet rest k v

/-- An edge of the notebook's edge list: a `(source, symbol, destination)`
triple.  Symbols are the single characters used throughout the notebook. -/
abbrev Edge := String × Char × String

/-- The two-level transition table `self.states`: a dict from state identifier
to a dict from symbol to successor state. -/
abbrev Dict := List (String × List (Char × String))

/-- The `StateMachine` object: transition table `self.states`, current state
cursor `self.state`, and the terminal set `self.terminal_states` (a Python
`set`, used only through membership, hence modelled as a list). -/
structure StateMachine where
  states : Dict
  state : String
  terminal_states : List String
deriving DecidableEq, Repr

/-- Python `if src not in self.states: self.states[src] = dict()` — register a
state identifier with an empty out-edge dict if it is not present yet. -/
def ensureKey (states : Dict) (k : String) : Dict :=
  if containsKey states k then states else states ++ [(k, [])]

/-- The loop body of `StateMachine.__init__`: fold over the edge list,
registering `src` and `dest`, and raising (modelled as `none`) when `symbol`
is already an out-edge of `src`. -/
def initLoop : List Edge → Dict → Option Dict
  | [], states => some states
  | (src, symbol, dest) :: rest, states =>
    let states1 := ensureKey states src
    let states2 := ensureKey states1 dest
    let m := dictGetD states2 src []
    if containsKey m symbol then none
    else initLoop rest (dictSet states2 src (m ++ [(symbol, dest)]))

/-- `StateMachine(edges, init_state, terminals)`: run the constructor loop,
then set `self.state = init_state` and remember the terminal states.  `none`
models the exception raised on a determinism violation. -/
def StateMachine.make (edges : List Edge) (init_state : String)
    (terminals : List String) : Option StateMachine :=
  (initLoop edges []).map
    (fun sts => { states := sts, state := init_state, terminal_states := terminals })

/-- `out_edges(self)`: `return self.states[self.state]`.  A `KeyError` (the
current state is not a key of the table) is modelled as `none`. -/
def out_edges (sm : StateMachine) : Option (List (Char × String)) :=
  dictLookup sm.states sm.state

/-- `is_terminal(self)`: `return self.state in self.terminal_states`. -/
def StateMachine.is_terminal (sm : StateMachine) : Bool :=
  sm.terminal_states.contains sm.state

/-- `advance(self, symbol)`: `self.state = self.out_edges()[symbol]`.  The
right-hand side is evaluated first, so when it raises (either `KeyError` from
`out_edges` or from the missing `symbol` key) the assignment never happens and
the object is unchanged; the Bool is the success flag (`false` = exception). -/
def advance (sm : StateMachine) (symbol : Char) : StateMachine × Bool :=
  match out_edges sm with
  | none => (sm, false)
  | some m =>
    match dictLookup m symbol with
    | none => (sm, false)
    | some dest => ({ sm with state := dest }, true)

/-- `check(sm, string)` from Assignment 1: walk the string from `sm`'s current
state, returning `False` at the first symbol that is not an out-edge, and
`is_terminal()` after consuming the whole string.  The returned machine is the
object after the call (`check` mutates `sm` in place and never restores it);
`none` models an uncaught `KeyError` from `out_edges`. -/
def check : StateMachine → List Char → StateMachine × Option Bool
  | sm, [] => (sm, some sm.is_terminal)
  | sm, c :: rest =>
    match out_edges sm with
    | none => (sm, none)
    | some m =>
      if containsKey m c then check (advance sm c).1 rest
      else (sm, some false)

/-- The `for edge in sm.out_edges():` loop of `sample2`, parametrised by the
recursive call `f` at the smaller length.  `saved` is the local variable
`state = sm.state` captured before the loop; after each branch the code
restores `sm.state = state`.  The returned machine is the object state after
the loop (on an uncaught exception, the object as of the raise). -/
def runLoop (f : StateMachine → List Char → StateMachine × Option (List (List Char)))
    (sm : StateMachine) (saved : String) (sofar : List Char) :
    List (Char × String) → StateMachine × Option (List (List Char))
  | [] => (sm, some [])
  | (edge, _) :: rest =>
    match advance sm edge with
    | (smA, false) => (smA, none)
    | (smA, true) =>
      match f smA (sofar ++ [edge]) with
      | (smR, none) => (smR, none)
      | (smR, some r1) =>
        match runLoop f { smR with state := saved } saved sofar rest with
        | (smF, none) => (smF, none)
        | (smF, some r2) => (smF, some (r1 ++ r2))

/-- `sample2(sm, length, sofar)` by structural recursion on `length`: at
length 0 yield `[sofar]` exactly when the current state is terminal; otherwise
iterate over the out-edges of the current state (raising a `KeyError`, i.e.
`none`, when the current state is not in the table). -/
def sample2Core : Nat → StateMachine → List Char → StateMachine × Option (List (List Char))
  | 0, sm, sofar => (sm, some (if sm.is_terminal then [sofar] else []))
  | n + 1, sm, sofar =>
    match out_edges sm with
    | none => (sm, none)
    | some m => runLoop (sample2Core n) sm sm.state sofar m

/-- `sample2` in the argument order of the notebook. -/
def sample2 (sm : StateMachine) (length : Nat) (sofar : List Char) :
    StateMachine × Option (List (List Char)) :=
  sample2Core length sm sofar

/-- `sample(sm, length)`: `return sample2(sm, length, "")`. -/
def sample (sm : StateMachine) (length : Nat) :
    StateMachine × Option (List (List Char)) :=
  sample2 sm length []

/-- The edge list of the notebook's `ab_a_` machine. -/
def abEdges : List Edge :=
  [("s1", 'a', "s2"), ("s2", 'b', "s3"), ("s3", 'a', "s3")]

/-- The `ab_a_` machine as built by the constructor. -/
def abM : StateMachine :=
  { states := [("s1", [('a', "s2")]), ("s2", [('b', "s3")]), ("s3", [('a', "s3")])],
    state := "s1",
    terminal_states := ["s3"] }

/-- The edge list of the notebook's `test2` email-address machine (the
uncommented version actually executed). -/
def test2Edges : List Edge :=
  [("s1", 'x', "s2"), ("s2", 'x', "s2"), ("s2", '@', "s3"), ("s3", 'x', "s4"),
   ("s4", '.', "s5"), ("s4", 'x', "s4"), ("s5", 'x', "s6"),
   ("s6", 'x', "s6"), ("s6", '.', "s5")]

/-- Sanity check tying the literal `abM` to the constructor. -/
theorem make_abEdges : StateMachine.make abEdges "s1" ["s3"] = some abM := by decide

/-! ### Association-list (Python dict) lemmas -/

theorem dictLookup_append {α β : Type} [DecidableEq α] (l1 l2 : List (α × β)) (k : α) :
    dictLookup (l1 ++ l2) k = (dictLookup l1 k).or (dictLookup l2 k) := by
  induction l1 with
  | nil => simp [dictLookup]
  | cons p rest ih =>
    obtain ⟨k2, v2⟩ := p
    by_cases h : k2 = k <;> simp [dictLookup, h, ih, Option.or]

theorem dictLookup_dictSet {α β : Type} [DecidableEq α] (l : List (α × β)) (k : α) (v : β)
    (key : α) :
    dictLookup (dictSet l k v) key = if k = key then some v else dictLookup l key := by
  induction l with
  | nil => by_cases h : k = key <;> simp [dictSet, dictLookup, h]
  | cons p rest ih =>
    obtain ⟨k2, v2⟩ := p
    by_cases h : k2 = k <;> by_cases h2 : k = key <;>
      simp_all [dictSet, dictLookup]

theorem isSome_or {α : Type} (a b : Option α) : (a.or b).isSome = (a.isSome || b.isSome) := by
  cases a <;> simp [Option.or]

theorem dictLookup_mem {α β : Type} [DecidableEq α] (m : List (α × β)) (k : α) (v : β)
    (h : dictLookup m k = some v) : (k, v) ∈ m := by
  induction m with
  | nil => simp [dictLookup] at h
  | cons p rest ih =>
    obtain ⟨k2, v2⟩ := p
    by_cases hk : k2 = k
    · subst hk
      simp [dictLookup] at h
      simp [h]
    · simp only [dictLookup, if_neg hk] at h
      exact List.mem_cons_of_mem _ (ih h)

theorem dictLookup_of_mem_nodup {α β : Type} [DecidableEq α] (m : List (α × β)) (k : α) (v : β)
    (hmem : (k, v) ∈ m) (hnd : (m.map Prod.fst).Nodup) : dictLookup m k = some v := by
  induction m with
  | nil => simp at hmem
  | cons p rest ih =>
    obtain ⟨k2, v2⟩ := p
    simp only [List.map_cons, List.nodup_cons] at hnd
    rcases List.mem_cons.mp hmem with heq | hmem2
    · obtain ⟨h1, h2⟩ := Prod.mk.injEq .. ▸ heq
      subst h1; subst h2
      simp [dictLookup]
    · have hk : k2 ≠ k := by
        intro hkk
        subst hkk
        exact hnd.1 (List.mem_map_of_mem Prod.fst hmem2)
      simp only [dictLookup, if_neg hk]
      exact ih hmem2 hnd.2

/-! ### Constructor analysis: when does `__init__` raise? -/

/-- Does the partially built table already map `(s, c)` to some destination?
This is the condition the constructor loop tests before inserting an edge. -/
def hasPair (states : Dict) (s : String) (c : Char) : Bool :=
  containsKey (dictGetD states s []) c

theorem hasPair_nil (s : String) (c : Char) : hasPair [] s c = false := rfl

theorem containsKey_getD_eq_hasPair (states : Dict) (s : String) (c : Char) :
    containsKey (dictGetD states s []) c = hasPair states s c := rfl

theorem hasPair_ensureKey (states : Dict) (x s : String) (c : Char) :
    hasPair (ensureKey states x) s c = hasPair states s c := by
  unfold ensureKey
  by_cases h : containsKey states x = true
  · simp [h]
  · simp only [h, if_false, Bool.false_eq_true]
    unfold hasPair dictGetD
    rw [dictLookup_append]
    cases hl : dictLookup states s with
    | some m => simp [Option.or]
    | none => by_cases hx : x = s <;> simp [dictLookup, hx, Option.or, containsKey]

theorem hasPair_dictSet (states : Dict) (k : String) (mv : List (Char × String))
    (x : String) (y : Char) :
    hasPair (dictSet states k mv) x y
      = if k = x then containsKey mv y else hasPair states x y := by
  unfold hasPair dictGetD
  rw [dictLookup_dictSet]
  by_cases h : k = x <;> simp [h]

theorem containsKey_append_single (m : List (Char × String)) (c : Char) (d : String) (y : Char) :
    containsKey (m ++ [(c, d)]) y = (containsKey m y || decide (c = y)) := by
  rw [containsKey, dictLookup_append, isSome_or]
  by_cases h : c = y <;> simp [containsKey, dictLookup, h]

theorem hasPair_step (states : Dict) (src : String) (symbol : Char) (dest : String)
    (x : String) (y : Char) :
    hasPair (dictSet (ensureKey (ensureKey states src) dest) src
        ((dictGetD (ensureKey (ensureKey states src) dest) src []) ++ [(symbol, dest)])) x y
      = (hasPair states x y || (decide (x = src) && decide (y = symbol))) := by
  have hS2 : ∀ s c, hasPair (ensureKey (ensureKey states src) dest) s c = hasPair states s c :=
    fun s c => (hasPair_ensureKey (ensureKey states src) dest s c).trans
      (hasPair_ensureKey states src s c)
  rw [hasPair_dictSet]
  by_cases hx : src = x
  · rw [if_pos hx, containsKey_append_single, containsKey_getD_eq_hasPair, hS2]
    subst hx
    by_cases hy : y = symbol
    · subst hy
      simp
    · have hsy : ¬ (symbol = y) := fun h => hy h.symm
      simp [hy, hsy]
  · have hx2 : ¬ (x = src) := fun h => hx h.symm
    rw [if_neg hx, hS2]
    simp [hx2]

theorem initLoop_eq_none_iff (edges : List Edge) :
    ∀ (states : Dict),
      initLoop edges states = none ↔
        ¬ ((edges.map (fun e => (e.1, e.2.1))).Nodup ∧
           ∀ e ∈ edges, hasPair states e.1 e.2.1 = false) := by
  induction edges with
  | nil => intro states; simp [initLoop]
  | cons e rest ih =>
    intro states
    obtain ⟨src, symbol, dest⟩ := e
    by_cases hP : hasPair states src symbol = true
    · have hred : initLoop ((src, symbol, dest) :: rest) states = none := by
        simp [initLoop, containsKey_getD_eq_hasPair, hasPair_ensureKey, hP]
      rw [hred]
      constructor
      · rintro - ⟨hnd, hall⟩
        have h1 : hasPair states src symbol = false :=
          hall (src, symbol, dest) (List.mem_cons_self _ _)
        rw [hP] at h1
        exact absurd h1 (by simp)
      · intro _
        rfl
    · have hPf : hasPair states src symbol = false := by
        cases hq : hasPair states src symbol
        · rfl
        · exact absurd hq hP
      have hred : initLoop ((src, symbol, dest) :: rest) states
          = initLoop rest (dictSet (ensureKey (ensureKey states src) dest) src
              ((dictGetD (ensureKey (ensureKey states src) dest) src []) ++ [(symbol, dest)])) := by
        simp [initLoop, containsKey_getD_eq_hasPair, hasPair_ensureKey, hPf]
      rw [hred, ih]
      apply not_congr
      simp only [hasPair_step, List.map_cons, List.nodup_cons, List.mem_cons, forall_eq_or_imp,
        List.mem_map, Bool.or_eq_false_iff, Bool.and_eq_false_iff, decide_eq_false_iff_not,
        Prod.mk.injEq, not_exists, not_and, hPf, true_and]
      constructor
      · rintro ⟨hnd, hall⟩
        refine ⟨⟨fun e he h1 h2 => ?_, hnd⟩, fun e he => (hall e he).1⟩
        rcases (hall e he).2 with h3 | h3
        · exact h3 h1
        · exact h3 h2
      · rintro ⟨⟨hnm, hnd⟩, hall⟩
        refine ⟨hnd, fun e he => ⟨hall e he, ?_⟩⟩
        rcases Decidable.em (e.1 = src) with h1 | h1
        · exact Or.inr fun h2 => hnm e he h1 h2
        · exact Or.inl h1

theorem make_eq_none_iff (edges : List Edge) (i : String) (t : List String) :
    StateMachine.make edges i t = none ↔
      ¬ (edges.map (fun e => (e.1, e.2.1))).Nodup := by
  have hmap : StateMachine.make edges i t = none ↔ initLoop edges [] = none := by
    unfold StateMachine.make
    cases initLoop edges [] <;> simp
  rw [hmap, initLoop_eq_none_iff]
  simp [hasPair_nil]

/-! ### Key registration by the constructor (for the `out_edges` analysis) -/

theorem containsKey_ensureKey_self (states : Dict) (k : String) :
    containsKey (ensureKey states k) k = true := by
  unfold ensureKey
  by_cases h : containsKey states k = true
  · simp [h]
  · simp only [h, if_false, Bool.false_eq_true]
    rw [containsKey, dictLookup_append, isSome_or]
    simp [dictLookup]

theorem containsKey_ensureKey_mono (states : Dict) (k x : String)
    (h : containsKey states x = true) : containsKey (ensureKey states k) x = true := by
  unfold ensureKey
  by_cases hc : containsKey states k = true
  · simp [hc, h]
  · simp only [hc, if_false, Bool.false_eq_true]
    rw [containsKey, dictLookup_append, isSome_or]
    rw [containsKey] at h
    simp [h]

theorem containsKey_dictSet_mono {α β : Type} [DecidableEq α] (l : List (α × β)) (k : α) (v : β)
    (x : α) (h : containsKey l x = true) : containsKey (dictSet l k v) x = true := by
  rw [containsKey, dictLookup_dictSet]
  by_cases hk : k = x
  · simp [hk]
  · rw [containsKey] at h
    simp [hk, h]

theorem initLoop_containsKey_mono (edges : List Edge) :
    ∀ (states states' : Dict) (x : String),
      initLoop edges states = some states' → containsKey states x = true →
      containsKey states' x = true := by
  induction edges with
  | nil =>
    intro states states' x h hx
    simp [initLoop] at h
    rw [← h]
    exact hx
  | cons e rest ih =>
    intro states states' x h hx
    obtain ⟨src, symbol, dest⟩ := e
    simp only [initLoop] at h
    by_cases hc : containsKey (dictGetD (ensureKey (ensureKey states src) dest) src []) symbol
        = true
    · rw [if_pos hc] at h
      cases h
    · rw [if_neg hc] at h
      exact ih _ _ x h (containsKey_dictSet_mono _ _ _ _
        (containsKey_ensureKey_mono _ _ _ (containsKey_ensureKey_mono _ _ _ hx)))

theorem initLoop_key_of_mem (edges : List Edge) :
    ∀ (states states' : Dict) (e : Edge),
      initLoop edges states = some states' → e ∈ edges →
      containsKey states' e.1 = true ∧ containsKey states' e.2.2 = true := by
  induction edges with
  | nil =>
    intro states states' e h hmem
    simp at hmem
  | cons e0 rest ih =>
    intro states states' e h hmem
    obtain ⟨src, symbol, dest⟩ := e0
    simp only [initLoop] at h
    by_cases hc : containsKey (dictGetD (ensureKey (ensureKey states src) dest) src []) symbol
        = true
    · rw [if_pos hc] at h
      cases h
    · rw [if_neg hc] at h
      rcases List.mem_cons.mp hmem with heq | hmem2
      · subst heq
        constructor
        · exact initLoop_containsKey_mono rest _ _ _ h (containsKey_dictSet_mono _ _ _ _
            (containsKey_ensureKey_mono _ _ _ (containsKey_ensureKey_self states src)))
        · exact initLoop_containsKey_mono rest _ _ _ h (containsKey_dictSet_mono _ _ _ _
            (containsKey_ensureKey_self (ensureKey states src) dest))
      · exact ih _ _ e h hmem2

theorem dictLookup_ensureKey_of_contains (states : Dict) (k x : String)
    (h : containsKey states x = true) :
    dictLookup (ensureKey states k) x = dictLookup states x := by
  unfold ensureKey
  by_cases hc : containsKey states k = true
  · simp [hc]
  · simp only [hc, if_false, Bool.false_eq_true]
    rw [dictLookup_append]
    rw [containsKey] at h
    cases hl : dictLookup states x with
    | none => rw [hl] at h; cases h
    | some m => simp [Option.or]

theorem dictLookup_ensureKey_ne_of_none (states : Dict) (k x : String)
    (hk : k ≠ x) (h : dictLookup states x = none) :
    dictLookup (ensureKey states k) x = none := by
  unfold ensureKey
  by_cases hc : containsKey states k = true
  · simp [hc, h]
  · simp only [hc, if_false, Bool.false_eq_true]
    rw [dictLookup_append, h]
    simp [dictLookup, hk, Option.or]

theorem dictLookup_ensureKey_self_of_none (states : Dict) (k : String)
    (h : dictLookup states k = none) :
    dictLookup (ensureKey states k) k = some [] := by
  unfold ensureKey
  have hc : ¬ (containsKey states k = true) := by
    rw [containsKey, h]
    simp
  simp only [hc, if_false, Bool.false_eq_true]
  rw [dictLookup_append, h]
  simp [dictLookup, Option.or]

theorem initLoop_lookup_of_not_src (edges : List Edge) :
    ∀ (states states' : Dict) (x : String),
      initLoop edges states = some states' → (∀ e ∈ edges, e.1 ≠ x) →
      containsKey states x = true →
      dictLookup states' x = dictLookup states x := by
  induction edges with
  | nil =>
    intro states states' x h hns hx
    simp [initLoop] at h
    rw [← h]
  | cons e0 rest ih =>
    intro states states' x h hns hx
    obtain ⟨src, symbol, dest⟩ := e0
    have hsrc : src ≠ x := hns (src, symbol, dest) (List.mem_cons_self _ _)
    simp only [initLoop] at h
    by_cases hc : containsKey (dictGetD (ensureKey (ensureKey states src) dest) src []) symbol
        = true
    · rw [if_pos hc] at h
      cases h
    · rw [if_neg hc] at h
      have hx1 : containsKey (ensureKey states src) x = true :=
        containsKey_ensureKey_mono _ _ _ hx
      have hx2 : containsKey (ensureKey (ensureKey states src) dest) x = true :=
        containsKey_ensureKey_mono _ _ _ hx1
      have hstep : dictLookup (dictSet (ensureKey (ensureKey states src) dest) src
            ((dictGetD (ensureKey (ensureKey states src) dest) src []) ++ [(symbol, dest)])) x
          = dictLookup states x := by
        rw [dictLookup_dictSet, if_neg hsrc,
          dictLookup_ensureKey_of_contains _ _ _ hx1,
          dictLookup_ensureKey_of_contains _ _ _ hx]
      rw [ih _ _ x h (fun e he => hns e (List.mem_cons_of_mem _ he))
        (containsKey_dictSet_mono _ _ _ _ hx2), hstep]

theorem initLoop_lookup_dest_only (edges : List Edge) :
    ∀ (states states' : Dict) (x : String),
      initLoop edges states = some states' → (∀ e ∈ edges, e.1 ≠ x) →
      dictLookup states x = none → (∃ e ∈ edges, e.2.2 = x) →
      dictLookup states' x = some [] := by
  induction edges with
  | nil =>
    intro states states' x h hns hnone hex
    simp at hex
  | cons e0 rest ih =>
    intro states states' x h hns hnone hex
    obtain ⟨src, symbol, dest⟩ := e0
    have hsrc : src ≠ x := hns (src, symbol, dest) (List.mem_cons_self _ _)
    simp only [initLoop] at h
    by_cases hc : containsKey (dictGetD (ensureKey (ensureKey states src) dest) src []) symbol
        = true
    · rw [if_pos hc] at h
      cases h
    · rw [if_neg hc] at h
      by_cases hd : dest = x
      · subst hd
        have h1 : dictLookup (ensureKey states src) dest = none :=
          dictLookup_ensureKey_ne_of_none _ _ _ hsrc hnone
        have h2 : dictLookup (ensureKey (ensureKey states src) dest) dest = some [] :=
          dictLookup_ensureKey_self_of_none _ _ h1
        have h3 : dictLookup (dictSet (ensureKey (ensureKey states src) dest) src
              ((dictGetD (ensureKey (ensureKey states src) dest) src []) ++ [(symbol, dest)]))
              dest = some [] := by
          rw [dictLookup_dictSet, if_neg hsrc, h2]
        have h4 : containsKey (dictSet (ensureKey (ensureKey states src) dest) src
              ((dictGetD (ensureKey (ensureKey states src) dest) src []) ++ [(symbol, dest)]))
              dest = true := by
          rw [containsKey, h3]
          rfl
        rw [initLoop_lookup_of_not_src rest _ _ dest h
          (fun e he => hns e (List.mem_cons_of_mem _ he)) h4, h3]
      · have h1 : dictLookup (ensureKey states src) x = none :=
          dictLookup_ensureKey_ne_of_none _ _ _ hsrc hnone
        have h2 : dictLookup (ensureKey (ensureKey states src) dest) x = none :=
          dictLookup_ensureKey_ne_of_none _ _ _ hd h1
        have h3 : dictLookup (dictSet (ensureKey (ensureKey states src) dest) src
              ((dictGetD (ensureKey (ensureKey states src) dest) src []) ++ [(symbol, dest)])) x
            = none := by
          rw [dictLookup_dictSet, if_neg hsrc, h2]
        have hex2 : ∃ e ∈ rest, e.2.2 = x := by
          rcases hex with ⟨e, he, hee⟩
          rcases List.mem_cons.mp he with heq | hmem2
          · subst heq
            exact absurd hee hd
          · exact ⟨e, hmem2, hee⟩
        exact ih _ _ x h (fun e he => hns e (List.mem_cons_of_mem _ he)) h3 hex2

/-! ### Facts about `advance`, `check` and the enumerator -/

theorem StateMachine.eq_of_fields {sm1 sm2 : StateMachine}
    (h1 : sm1.states = sm2.states) (h2 : sm1.state = sm2.state)
    (h3 : sm1.terminal_states = sm2.terminal_states) : sm1 = sm2 := by
  cases sm1
  cases sm2
  simp_all

theorem advance_fst_fields (sm : StateMachine) (c : Char) :
    (advance sm c).1.states = sm.states ∧
    (advance sm c).1.terminal_states = sm.terminal_states := by
  rcases ho : out_edges sm with _ | m
  · simp [advance, ho]
  · rcases hl : dictLookup m c with _ | d <;> simp [advance, ho, hl]

theorem advance_of_lookup (sm : StateMachine) (c : Char) (m : List (Char × String)) (d : String)
    (ho : out_edges sm = some m) (hl : dictLookup m c = some d) :
    advance sm c = ({ sm with state := d }, true) := by
  simp [advance, ho, hl]

theorem runLoop_restore
    (f : StateMachine → List Char → StateMachine × Option (List (List Char)))
    (hf : ∀ sm2 sofar2 r l2, f sm2 sofar2 = (r, some l2) → r = sm2) :
    ∀ (m : List (Char × String)) (sm : StateMachine) (saved : String) (sofar : List Char)
      (res : StateMachine) (l : List (List Char)),
      sm.state = saved → runLoop f sm saved sofar m = (res, some l) → res = sm := by
  intro m
  induction m with
  | nil =>
    intro sm saved sofar res l hs h
    simp [runLoop] at h
    exact h.1.symm
  | cons p rest ih =>
    obtain ⟨edge, dd⟩ := p
    intro sm saved sofar res l hs h
    rw [runLoop] at h
    split at h
    · simp at h
    · rename_i smA hA
      split at h
      · simp at h
      · rename_i smR r1 h1
        split at h
        · simp at h
        · rename_i smF r2 h2
          simp only [Prod.mk.injEq] at h
          have hR : smR = smA := hf _ _ _ _ h1
          have hA1 : smA.states = sm.states ∧ smA.terminal_states = sm.terminal_states := by
            have hfld := advance_fst_fields sm edge
            rw [hA] at hfld
            exact hfld
          have hB : ({ smR with state := saved } : StateMachine) = sm := by
            apply StateMachine.eq_of_fields
            · simp [hR, hA1.1]
            · simp [hs]
            · simp [hR, hA1.2]
          have hF : smF = { smR with state := saved } :=
            ih { smR with state := saved } saved sofar smF r2 rfl h2
          rw [← h.1, hF, hB]

theorem sample2Core_restore :
    ∀ (n : Nat) (sm : StateMachine) (sofar : List Char) (res : StateMachine)
      (l : List (List Char)),
      sample2Core n sm sofar = (res, some l) → res = sm := by
  intro n
  induction n with
  | zero =>
    intro sm sofar res l h
    simp [sample2Core] at h
    exact h.1.symm
  | succ k ih =>
    intro sm sofar res l h
    rw [sample2Core] at h
    rcases ho : out_edges sm with _ | m
    · rw [ho] at h
      simp at h
    · rw [ho] at h
      exact runLoop_restore (sample2Core k) (fun a b c d => ih a b c d) m sm sm.state sofar
        res l rfl h

theorem runLoop_sound (n : Nat)
    (f : StateMachine → List Char → StateMachine × Option (List (List Char)))
    (hfr : ∀ sm2 sofar2 r l2, f sm2 sofar2 = (r, some l2) → r = sm2)
    (hfs : ∀ sm2 sofar2 r l2, (∀ pr ∈ sm2.states, (pr.2.map Prod.fst).Nodup) →
      f sm2 sofar2 = (r, some l2) → ∀ s ∈ l2,
      ∃ p, s = sofar2 ++ p ∧ p.length = n ∧ (check sm2 p).2 = some true) :
    ∀ (m : List (Char × String)) (sm : StateMachine) (saved : String) (sofar : List Char)
      (M : List (Char × String)) (res : StateMachine) (l : List (List Char)),
      (∀ pr ∈ sm.states, (pr.2.map Prod.fst).Nodup) →
      sm.state = saved → out_edges sm = some M →
      (∀ pr ∈ m, pr ∈ M) →
      runLoop f sm saved sofar m = (res, some l) →
      ∀ s ∈ l, ∃ p, s = sofar ++ p ∧ p.length = n + 1 ∧ (check sm p).2 = some true := by
  intro m
  induction m with
  | nil =>
    intro sm saved sofar M res l hnd hs ho hm h s hsl
    simp [runLoop] at h
    rw [h.2] at hsl
    simp at hsl
  | cons p rest ih =>
    obtain ⟨edge, dd⟩ := p
    intro sm saved sofar M res l hnd hs ho hm h s hsl
    have hMnd : (M.map Prod.fst).Nodup := hnd (sm.state, M) (dictLookup_mem _ _ _ ho)
    have hlk : dictLookup M edge = some dd :=
      dictLookup_of_mem_nodup M edge dd (hm (edge, dd) (List.mem_cons_self _ _)) hMnd
    have hA : advance sm edge = ({ sm with state := dd }, true) :=
      advance_of_lookup sm edge M dd ho hlk
    rw [runLoop] at h
    split at h
    · rename_i smA hA2
      rw [hA] at hA2
      simp at hA2
    · rename_i smA hA2
      rw [hA] at hA2
      have hsmA : smA = { sm with state := dd } := ((Prod.ext_iff.mp hA2).1).symm
      subst hsmA
      split at h
      · simp at h
      · rename_i smR r1 h1
        split at h
        · simp at h
        · rename_i smF r2 h2
          simp only [Prod.mk.injEq, Option.some.injEq] at h
          rw [← h.2] at hsl
          have hckTrue : containsKey M edge = true := by
            rw [containsKey, hlk]
            rfl
          rcases List.mem_append.mp hsl with hs1 | hs2
          · obtain ⟨p, hp1, hp2, hp3⟩ := hfs { sm with state := dd } (sofar ++ [edge]) smR r1
              (fun pr hpr => hnd pr hpr) h1 s hs1
            refine ⟨edge :: p, ?_, by simp [hp2], ?_⟩
            · rw [hp1]
              simp
            · rw [show check sm (edge :: p) = check { sm with state := dd } p from by
                simp [check, ho, hckTrue, hA]]
              exact hp3
          · have hR : smR = { sm with state := dd } := hfr _ _ _ _ h1
            have hB : ({ smR with state := saved } : StateMachine) = sm := by
              apply StateMachine.eq_of_fields
              · simp [hR]
              · simp [hs]
              · simp [hR]
            rw [hB] at h2
            exact ih sm saved sofar M smF r2 hnd hs ho
              (fun pr hpr => hm pr (List.mem_cons_of_mem _ hpr)) h2 s hs2

theorem sample2Core_sound :
    ∀ (n : Nat) (sm : StateMachine) (sofar : List Char) (res : StateMachine)
      (l : List (List Char)),
      (∀ pr ∈ sm.states, (pr.2.map Prod.fst).Nodup) →
      sample2Core n sm sofar = (res, some l) →
      ∀ s ∈ l, ∃ p, s = sofar ++ p ∧ p.length = n ∧ (check sm p).2 = some true := by
  intro n
  induction n with
  | zero =>
    intro sm sofar res l hnd h s hsl
    simp only [sample2Core, Prod.mk.injEq, Option.some.injEq] at h
    rw [← h.2] at hsl
    cases ht : sm.is_terminal with
    | false =>
      rw [ht] at hsl
      simp at hsl
    | true =>
      rw [ht] at hsl
      simp at hsl
      exact ⟨[], by simp [hsl], rfl, by simp [check, ht]⟩
  | succ k ih =>
    intro sm sofar res l hnd h s hsl
    rw [sample2Core] at h
    rcases ho : out_edges sm with _ | M
    · rw [ho] at h
      simp at h
    · rw [ho] at h
      exact runLoop_sound k (sample2Core k) (fun a b c d => sample2Core_restore k a b c d)
        (fun a b c d hnd2 => ih a b c d hnd2) M sm sm.state sofar M res l hnd rfl ho
        (fun pr hpr => hpr) h s hsl

/-- Transcription of the spec's description of `Accepts`: consume the string
symbol by symbol from the current state, answer `false` as soon as a symbol is
not a valid transition, and answer `IsTerminal()` after consuming the whole
string.  (Definition follows the spec's words; the refinement theorem relates
it to the notebook's `check`.) -/
def AcceptsSpec : StateMachine → List Char → Bool
  | sm, [] => sm.is_terminal
  | sm, c :: rest =>
    match out_edges sm with
    | none => false
    | some m =>
      match dictLookup m c with
      | none => false
      | some d => AcceptsSpec { sm with state := d } rest

/-! ### Claim theorems -/

/-- C1 counterexample: on the `ab_a_` machine (edges s1-a-s2, s2-b-s3,
s3-a-s3, initial s1, terminal set containing s3), `check` on the string "ab"
returns `True`, not `False` as the claim states: after consuming "ab" the
machine sits in the terminal state s3. -/
theorem check_ab_cex :
    (StateMachine.make abEdges "s1" ["s3"]).map (fun sm => (check sm ['a', 'b']).2)
      = some (some true) ∧
    (some (some true) : Option (Option Bool)) ≠ some (some false) :=
  ⟨by decide, by decide⟩

/-- C1 (amended): on a fresh `ab_a_` machine, `check` returns true for "aba",
true for "ab" (the terminal state s3 is already reached after "ab"), and
false for "ba". -/
theorem check_ab_a_results :
    (StateMachine.make abEdges "s1" ["s3"]).map (fun sm =>
      ((check sm ['a', 'b', 'a']).2, (check sm ['a', 'b']).2, (check sm ['b', 'a']).2))
      = some (some true, some true, some false) := by decide

/-- C2 counterexample: an edge list repeating the same edge
(s1, a, s2) twice — the repeated (source, symbol) pair maps to the *same*
destination — still raises the construction error, whereas the claim says
construction succeeds in that case. -/
theorem construction_same_dest_cex :
    StateMachine.make [("s1", 'a', "s2"), ("s1", 'a', "s2")] "s1" ["s2"] = none := by decide

/-- C2 (amended): construction raises the determinism error if and only if
the edge list contains two edges sharing the same (source, symbol) pair,
regardless of whether their destinations agree. -/
theorem construction_fails_iff_pair_repeated (edges : List Edge) (i : String)
    (t : List String) :
    StateMachine.make edges i t = none ↔
      ¬ (edges.map (fun e => (e.1, e.2.1))).Nodup :=
  make_eq_none_iff edges i t

/-- C3 counterexample: the machine constructed from the empty edge list with
initial state s1 builds successfully, its current (initial) state s1 appears
in no edge, and `out_edges` raises a `KeyError` (modelled `none`) instead of
returning the empty mapping as the claim states. -/
theorem out_edges_keyerror_cex :
    StateMachine.make [] "s1" [] = some { states := [], state := "s1", terminal_states := [] } ∧
    out_edges { states := [], state := "s1", terminal_states := [] } = none :=
  ⟨by decide, by decide⟩

/-- C3 (amended): for a successfully constructed machine, `out_edges` returns
a mapping without error at every current state that appears in the edge list
(as a source or a destination) — in particular at every state reachable by
valid advances — and returns the empty mapping at a state that appears only
as a destination (no outgoing edges); but when the current state appears in
no edge at all (e.g. an initial state outside the edge list), `out_edges`
raises a `KeyError`. -/
theorem out_edges_of_constructed (edges : List Edge) (i : String) (t : List String)
    (sm : StateMachine) (x : String) (h : StateMachine.make edges i t = some sm) :
    ((∃ e ∈ edges, e.1 = x ∨ e.2.2 = x) → ∃ m, out_edges { sm with state := x } = some m) ∧
    (((∀ e ∈ edges, e.1 ≠ x) ∧ ∃ e ∈ edges, e.2.2 = x) →
      out_edges { sm with state := x } = some []) := by
  have hsts : ∃ sts, initLoop edges [] = some sts ∧ sm.states = sts := by
    unfold StateMachine.make at h
    cases hI : initLoop edges [] with
    | none =>
      rw [hI] at h
      simp at h
    | some sts =>
      rw [hI] at h
      simp at h
      exact ⟨sts, rfl, by rw [← h]⟩
  obtain ⟨sts, hIL, hstseq⟩ := hsts
  have hout : out_edges { sm with state := x } = dictLookup sts x := by
    unfold out_edges
    simp [hstseq]
  constructor
  · rintro ⟨e, he, hx⟩
    have hkey : containsKey sts e.1 = true ∧ containsKey sts e.2.2 = true :=
      initLoop_key_of_mem edges [] sts e hIL he
    rw [hout]
    rcases hx with hx | hx
    · subst hx
      rcases hlk : dictLookup sts e.1 with _ | m
      · exfalso
        have h1 := hkey.1
        rw [containsKey, hlk] at h1
        simp at h1
      · exact ⟨m, rfl⟩
    · subst hx
      rcases hlk : dictLookup sts e.2.2 with _ | m
      · exfalso
        have h1 := hkey.2
        rw [containsKey, hlk] at h1
        simp at h1
      · exact ⟨m, rfl⟩
  · rintro ⟨hns, e, he, hx⟩
    rw [hout]
    exact initLoop_lookup_dest_only edges [] sts x hIL hns rfl ⟨e, he, hx⟩

/-- C3 witness: a concrete application of the amended theorem — in the
machine built from the single edge (s1, a, s2) with initial state s2, the
state s2 appears only as a destination and `out_edges` returns the empty
mapping. -/
theorem out_edges_of_constructed_witness :
    out_edges { states := [("s1", [('a', "s2")]), ("s2", [])], state := "s2",
                terminal_states := ([] : List String) } = some [] :=
  (out_edges_of_constructed [("s1", 'a', "s2")] "s2" []
    { states := [("s1", [('a', "s2")]), ("s2", [])], state := "s2", terminal_states := [] }
    "s2" (by decide)).2 ⟨by decide, ("s1", 'a', "s2"), by decide, rfl⟩

/-- C4 (confirmed): every string produced by `sample` for length `n` from a
machine whose per-state out-edge dicts have no duplicated symbol keys (true
of every Python dict) has length exactly `n` and is accepted by `check` run
on an unmutated copy of the machine. -/
theorem sample_sound (sm : StateMachine) (n : Nat) (l : List (List Char)) (s : List Char)
    (hnd : ∀ pr ∈ sm.states, (pr.2.map Prod.fst).Nodup)
    (h : (sample sm n).2 = some l) (hs : s ∈ l) :
    s.length = n ∧ (check sm s).2 = some true := by
  rcases hp : sample2Core n sm [] with ⟨res, o⟩
  have hs2 : sample sm n = (res, o) := hp
  rw [hs2] at h
  have h2 : o = some l := h
  subst h2
  obtain ⟨p, hp1, hp2, hp3⟩ := sample2Core_sound n sm [] res l hnd hp s hs
  simp only [List.nil_append] at hp1
  subst hp1
  exact ⟨hp2, hp3⟩

/-- C4 witness: the length-3 enumeration of the `ab_a_` machine yields
exactly "aba", which has length 3 and is accepted by `check`. -/
theorem sample_sound_witness :
    (['a', 'b', 'a'] : List Char).length = 3 ∧ (check abM ['a', 'b', 'a']).2 = some true :=
  sample_sound abM 3 [['a', 'b', 'a']] ['a', 'b', 'a'] (by decide) (by decide) (by decide)

/-- C5 counterexample: for the successfully constructed machine with no edges
and initial state s1, the symbol 'a' is not a valid transition, yet `check`
raises a `KeyError` (modelled `none`) instead of returning false. -/
theorem check_keyerror_cex :
    StateMachine.make [] "s1" [] = some { states := [], state := "s1", terminal_states := [] } ∧
    (check { states := [], state := "s1", terminal_states := [] } ['a']).2 = none ∧
    (check { states := [], state := "s1", terminal_states := [] } ['a']).2 ≠ some false :=
  ⟨by decide, by decide, by decide⟩

/-- C5 (amended): provided every destination stored in the transition table is
itself a key of the table (true of every constructed machine) and the current
(initial) state is a key of the table — i.e. the initial state appears in some
edge — `check` never raises: it returns false as soon as a symbol is not a
valid transition and otherwise consumes the whole string and returns
`is_terminal()`, exactly the spec's `Accepts`.  When the initial state appears
in no edge, `check` instead raises a `KeyError` on any nonempty string. -/
theorem check_refines_accepts (sm : StateMachine) (str : List Char)
    (hclosed : ∀ pr ∈ sm.states, ∀ q ∈ pr.2, containsKey sm.states q.2 = true)
    (hstate : containsKey sm.states sm.state = true) :
    (check sm str).2 = some (AcceptsSpec sm str) := by
  induction str generalizing sm with
  | nil => simp [check, AcceptsSpec]
  | cons c rest ih =>
    rcases ho : out_edges sm with _ | m
    · exfalso
      have hstate2 : (out_edges sm).isSome = true := hstate
      rw [ho] at hstate2
      simp at hstate2
    · rcases hl : dictLookup m c with _ | d
      · have hck : containsKey m c = false := by
          rw [containsKey, hl]
          rfl
        simp [check, AcceptsSpec, ho, hl, hck]
      · have hck : containsKey m c = true := by
          rw [containsKey, hl]
          rfl
        have hA : advance sm c = ({ sm with state := d }, true) :=
          advance_of_lookup sm c m d ho hl
        have hmem : (sm.state, m) ∈ sm.states := dictLookup_mem _ _ _ ho
        have hd : containsKey sm.states d = true :=
          hclosed (sm.state, m) hmem (c, d) (dictLookup_mem _ _ _ hl)
        have hrec := ih { sm with state := d } hclosed hd
        rw [show check sm (c :: rest) = check { sm with state := d } rest from by
            simp [check, ho, hck, hA],
          show AcceptsSpec sm (c :: rest) = AcceptsSpec { sm with state := d } rest from by
            simp [AcceptsSpec, ho, hl]]
        exact hrec

/-- C5 witness: on the `ab_a_` machine (whose initial state s1 is a key of
the table) `check` of "aba" returns exactly the spec-level acceptance
verdict. -/
theorem check_refines_accepts_witness :
    (check abM ['a', 'b', 'a']).2 = some (AcceptsSpec abM ['a', 'b', 'a']) :=
  check_refines_accepts abM ['a', 'b', 'a'] (by decide) (by decide)

/-- C6 (confirmed): when the symbol is not in the current out-edge mapping
(including when the current state has no mapping at all), `advance` raises
(success flag false) and the machine is returned unchanged; when the symbol is
mapped to `d`, the current state becomes `d`. -/
theorem advance_error_and_success (sm : StateMachine) (c : Char) :
    ((out_edges sm).bind (fun m => dictLookup m c) = none → advance sm c = (sm, false)) ∧
    (∀ d, (out_edges sm).bind (fun m => dictLookup m c) = some d →
      advance sm c = ({ sm with state := d }, true)) := by
  constructor
  · intro h
    rcases ho : out_edges sm with _ | m
    · simp [advance, ho]
    · rw [ho] at h
      simp at h
      simp [advance, ho, h]
  · intro d hd
    rcases ho : out_edges sm with _ | m
    · rw [ho] at hd
      simp at hd
    · rw [ho] at hd
      simp at hd
      exact advance_of_lookup sm c m d ho hd

/-- C6 witness: on the `ab_a_` machine at s1, advancing on 'b' fails and
leaves the machine unchanged, while advancing on 'a' moves it to s2. -/
theorem advance_error_and_success_witness :
    advance abM 'b' = (abM, false) ∧ advance abM 'a' = ({ abM with state := "s2" }, true) :=
  ⟨(advance_error_and_success abM 'b').1 (by decide),
   (advance_error_and_success abM 'a').2 "s2" (by decide)⟩

/-- C7 (confirmed): `sample` at length 0 returns the one-element list holding
the empty string when the current state is terminal, and the empty list
otherwise. -/
theorem sample_zero (sm : StateMachine) :
    (sample sm 0).2 = some (if sm.is_terminal then [([] : List Char)] else []) := rfl

/-- C8 (confirmed): whenever `sample` returns normally, the machine it hands
back is exactly the machine it was given — the current-state cursor is
restored after every explored branch, so the enumeration leaves the automaton
unchanged. -/
theorem sample_preserves_machine (sm : StateMachine) (n : Nat) (l : List (List Char))
    (h : (sample sm n).2 = some l) : (sample sm n).1 = sm := by
  rcases hp : sample2Core n sm [] with ⟨res, o⟩
  have hs2 : sample sm n = (res, o) := hp
  rw [hs2] at h ⊢
  have h2 : o = some l := h
  subst h2
  exact sample2Core_restore n sm [] res l hp

/-- C8 witness: enumerating length-3 strings of the `ab_a_` machine returns
the machine in its original configuration. -/
theorem sample_preserves_machine_witness : (sample abM 3).1 = abM :=
  sample_preserves_machine abM 3 [['a', 'b', 'a']] (by decide)

/-- C9 (confirmed): on the notebook's email-address machine, `sample` at
length 5 yields exactly "x@x.x", and at length 6 yields exactly the
three-element set containing "x@x.xx", "x@xx.x" and "xx@x.x" (the embedding
produces them in dict insertion order; the result list is a permutation of
the set in the claim). -/
theorem enumerate_email_lengths :
    (StateMachine.make test2Edges "s1" ["s6"]).map (fun sm =>
        ((sample sm 5).2, (sample sm 6).2))
      = some (some [['x', '@', 'x', '.', 'x']],
          some [['x', 'x', '@', 'x', '.', 'x'], ['x', '@', 'x', '.', 'x', 'x'],
            ['x', '@', 'x', 'x', '.', 'x']]) ∧
    List.Perm
      [['x', 'x', '@', 'x', '.', 'x'], ['x', '@', 'x', '.', 'x', 'x'],
        ['x', '@', 'x', 'x', '.', 'x']]
      [['x', '@', 'x', '.', 'x', 'x'], ['x', '@', 'x', 'x', '.', 'x'],
        ['x', 'x', '@', 'x', '.', 'x']] :=
  ⟨by decide, by decide⟩

/-- C10 (confirmed): `check` consumes from the machine's current state and
threads the mutated machine through without restoring it — stepping along a
valid symbol continues from the successor state, an invalid symbol stops with
the machine as mutated so far — and concretely on the `ab_a_` machine the
call `check(sm, "a")` returns false leaving the machine in s2, after which
`check(sm, "ba")` on the same instance returns true although it returns false
on a fresh instance. -/
theorem check_threads_state (sm : StateMachine) (c : Char) (rest : List Char) :
    (∀ m d, out_edges sm = some m → dictLookup m c = some d →
      check sm (c :: rest) = check { sm with state := d } rest) ∧
    (∀ m, out_edges sm = some m → dictLookup m c = none →
      check sm (c :: rest) = (sm, some false)) ∧
    ((check abM ['a']).2 = some false ∧ (check abM ['a']).1.state = "s2" ∧
      (check (check abM ['a']).1 ['b', 'a']).2 = some true ∧
      (check abM ['b', 'a']).2 = some false) := by
  refine ⟨?_, ?_, by decide, by decide, by decide, by decide⟩
  · intro m d ho hl
    have hck : containsKey m c = true := by
      rw [containsKey, hl]
      rfl
    have hA : advance sm c = ({ sm with state := d }, true) := advance_of_lookup sm c m d ho hl
    simp [check, ho, hck, hA]
  · intro m ho hl
    have hck : containsKey m c = false := by
      rw [containsKey, hl]
      rfl
    simp [check, ho, hck]

/-- C10 witness: on the `ab_a_` machine, checking "a…" steps to s2 and
continues from there without any reset. -/
theorem check_threads_state_witness :
    check abM ['a'] = check { abM with state := "s2" } [] :=
  (check_threads_state abM 'a' []).1 [('a', "s2")] "s2" (by decide) (by decide)

end StateMachines
